import Mathlib

/-
Verification of the core of csync-azd (Azure DevOps contribution sync tool)
against its specification.  The embedding follows src/unnamed/part_001:
  - the pagination loop of AzureDevOpsClient.getCommits (lines 140-172),
  - the GitOperations store (lines 176-267) over a model of the external
    git executor,
  - the orchestrator in main (fetch loop, sort, replay loop; lines 456-535).
-/

namespace Csync

/-- A commit record as consumed from the remote API: the fields of
`commit` the program reads (`commitId`, `author.name`, `author.email`,
`author.date`, `comment`).  Dates are embedded as integers
(milliseconds, as produced by JavaScript `Date.getTime()`). -/
structure CommitRecord where
  commitId : String
  authorName : String
  authorEmail : String
  authorDate : Int
  comment : String
deriving DecidableEq

/-- One response of the paginated commits endpoint: the `value` array of
commit records together with the has-more signal the code derives from
the response headers (`link` header containing a next relation,
part_001 line 167). -/
structure Page where
  value : List CommitRecord
  hasNext : Bool
deriving DecidableEq

/-- Embedding of the do/while pagination loop of
`AzureDevOpsClient.getCommits` (part_001 lines 150-169).  `resps` is the
sequence of responses the remote source yields to the successive
requests.  Each iteration appends the page's `value` to the accumulator
and, when the page signals a next page, issues the next request with the
skip cursor `some acc.length` (the number of records already collected;
the first request carries no skip, modelled as `none`).  The result is
the accumulated records paired with the cursor sent on each request, or
`none` when the scripted responses are exhausted while the last consumed
response still signalled a next page (the loop would keep requesting). -/
def getCommitsLoop : List Page → Option Nat → List CommitRecord →
    Option (List CommitRecord × List (Option Nat))
  | [], _, _ => none
  | page :: rest, cursor, acc =>
    let acc2 := acc ++ page.value
    if page.hasNext then
      match getCommitsLoop rest (some acc2.length) acc2 with
      | none => none
      | some (res, curs) => some (res, cursor :: curs)
    else
      some (acc2, [cursor])

/-- `AzureDevOpsClient.getCommits` run against the scripted response
sequence `resps`: the loop starts with an empty accumulator and no skip
cursor (part_001 lines 150-157). -/
def getCommits (resps : List Page) :
    Option (List CommitRecord × List (Option Nat)) :=
  getCommitsLoop resps none []

/-- A response script is well formed when it is exactly the sequence of
pages a source returns to the loop: every page but the last signals a
next page and the last one does not. -/
def wfScript : List Page → Bool
  | [] => false
  | [p] => !p.hasNext
  | p :: q :: rest => p.hasNext && wfScript (q :: rest)

/-- The sizes of the pages of a script. -/
def pageSizes (resps : List Page) : List Nat :=
  resps.map fun p => p.value.length

/-- The skip cursors the loop sends after the first request, given that
`n` records are already collected: each is the running total of records
collected so far (no request follows the last page). -/
def wfCursors (n : Nat) : List Nat → List (Option Nat)
  | [] => []
  | [_] => []
  | s :: r :: rest => some (n + s) :: wfCursors (n + s) (r :: rest)

/-- On a well-formed script the loop consumes every page, accumulating
their records in order, and sends exactly the running-total skip
cursors. -/
lemma getCommitsLoop_eq :
    ∀ (resps : List Page), wfScript resps = true →
    ∀ (cursor : Option Nat) (acc : List CommitRecord),
      getCommitsLoop resps cursor acc =
        some (acc ++ (resps.map Page.value).flatten,
              cursor :: wfCursors acc.length (pageSizes resps)) := by
  intro resps
  induction resps with
  | nil => intro h; simp [wfScript] at h
  | cons p rest ih =>
    cases rest with
    | nil =>
      intro h cursor acc
      have hp : p.hasNext = false := by
        simpa [wfScript] using h
      simp [getCommitsLoop, hp, pageSizes, wfCursors]
    | cons q rest2 =>
      intro h cursor acc
      rw [wfScript] at h
      rw [Bool.and_eq_true] at h
      have hp : p.hasNext = true := h.1
      have ihr := ih h.2 (some (acc ++ p.value).length) (acc ++ p.value)
      show (if p.hasNext = true then
              match getCommitsLoop (q :: rest2) (some (acc ++ p.value).length)
                  (acc ++ p.value) with
              | none => none
              | some (res, curs) => some (res, cursor :: curs)
            else some (acc ++ p.value, [cursor])) = _
      rw [if_pos hp, ihr]
      simp [pageSizes, wfCursors, List.append_assoc]

/-- Sample commit record A. -/
def cA : CommitRecord := ⟨"aaaa0001", "Ann", "ann@example.com", 10, "first"⟩

/-- Sample commit record B. -/
def cB : CommitRecord := ⟨"bbbb0002", "Ann", "ann@example.com", 20, "second"⟩

/-- Sample commit record C. -/
def cC : CommitRecord := ⟨"cccc0003", "Ann", "ann@example.com", 30, "third"⟩

/-- Sample commit record D. -/
def cD : CommitRecord := ⟨"dddd0004", "Ann", "ann@example.com", 40, "fourth"⟩

/-- C1: for every sequence of pages returned by the commit source (every
page but the last signalling a next page, the last not), the pagination
loop of `getCommits` returns the concatenation of all pages — its size
is the sum of the sizes of all pages, however the source splits the
records — and the skip cursor sent on each request after the first
equals the number of records already collected (the first request
carries no cursor). -/
theorem claim_c1 (resps : List Page) (h : wfScript resps = true) :
    getCommits resps =
      some ((resps.map Page.value).flatten,
            Option.none :: wfCursors 0 (pageSizes resps)) ∧
    ((resps.map Page.value).flatten).length = (pageSizes resps).sum := by
  constructor
  · have := getCommitsLoop_eq resps h none []
    simpa [getCommits] using this
  · simp only [pageSizes, List.length_flatten, List.map_map]
    rfl

/-- A three-page split of three records: two records, then one, then an
empty final page. -/
def c1pages : List Page := [⟨[cA, cB], true⟩, ⟨[cC], true⟩, ⟨[], false⟩]

/-- Witness for C1 at a concrete split into three pages (the last one
empty): the result is all three records and the cursors are the running
totals 2 and 3. -/
theorem claim_c1_witness :
    wfScript c1pages = true ∧
      (getCommits c1pages =
          some ((c1pages.map Page.value).flatten,
                Option.none :: wfCursors 0 (pageSizes c1pages)) ∧
        ((c1pages.map Page.value).flatten).length = (pageSizes c1pages).sum) :=
  ⟨rfl, claim_c1 c1pages rfl⟩

/-- C2 (amended): the pagination loop terminates — `getCommits` returns a
result — for every page sequence whose last page's has-more signal is
false, without assuming a fixed page count; termination is driven only
by the has-more signal, so an empty page ends the loop only when that
signal is false on it. -/
theorem claim_c2_amended (resps : List Page) (h : wfScript resps = true) :
    (getCommits resps).isSome = true := by
  have := getCommitsLoop_eq resps h none []
  simp [getCommits, this]

/-- A script whose first page is nonempty and signals a next page, and
whose second page is empty and signals no next page. -/
def c2pages : List Page := [⟨[cD], true⟩, ⟨[], false⟩]

/-- Witness for C2 (amended): the loop terminates on a script ending
with an empty no-next page. -/
theorem claim_c2_witness :
    wfScript c2pages = true ∧ (getCommits c2pages).isSome = true :=
  ⟨rfl, claim_c2_amended c2pages rfl⟩

/-- Counterexample for C2 as stated: an empty page does not end the
loop.  First, a source that keeps answering empty pages with the
has-more signal set never lets the loop finish (the loop has consumed
every scripted page and still requests more).  Second, on a script whose
first page is empty but signals a next page, the loop continues past the
empty page and returns the later page's record (had the empty page ended
the loop, the result would have been the empty collection after one
request). -/
theorem claim_c2_counterexample :
    getCommits (List.replicate 3 ⟨[], true⟩) = none ∧
    getCommits [⟨[], true⟩, ⟨[cD], false⟩] =
      some ([cD], [Option.none, some 0]) ∧
    ([cD] : List CommitRecord) ≠ [] := by
  refine ⟨rfl, rfl, by decide⟩

/-
Local replay store: `GitOperations` (part_001 lines 176-267).  The git
subprocess is the external black-box executor; it is modelled here with
standard git semantics: the repository state is a working tree, a `.git`
marker and a commit history (oldest first).  `git add .` stages every
change of the working tree against the last committed snapshot; plain
`git commit` fails when nothing is staged; `git commit --date d` sets
the author date to `d` while the committer date is the wall clock at
commit time; `git log -1 --format=%cd -- f` prints the committer date of
the newest commit that changed `f`.
-/

/-- The single tracked file, `this.filename` (part_001 line 182). -/
def sentinelName : String := "foo.txt"

/-- A working tree or snapshot: file names with their contents. -/
abbrev FileTree := List (String × String)

/-- Reading a file from a tree: the first entry with the given name. -/
def getFile : FileTree → String → Option String
  | [], _ => none
  | f :: rest, name => if f.1 = name then some f.2 else getFile rest name

/-- Writing a file (`Deno.writeTextFile`, part_001 line 207): the
content of `name` is replaced wholesale; a missing file is created. -/
def setFile : FileTree → String → String → FileTree
  | [], name, content => [(name, content)]
  | f :: rest, name, content =>
    if f.1 = name then (name, content) :: setFile rest name content
    else f :: setFile rest name content

/-- A commit of the model repository: author date (forced by
`--date`), committer date (wall clock), message, the names of the files
this commit changed, and the full tree snapshot after the commit. -/
structure Commit where
  authorDate : Int
  committerDate : Int
  message : String
  changed : List String
  snapshot : FileTree
deriving DecidableEq

/-- State of the local store: the directory, the `.git` marker, the
working tree and the commit history (oldest first). -/
structure Repo where
  dirExists : Bool
  gitDir : Bool
  workTree : FileTree
  history : List Commit
deriving DecidableEq

/-- The tree recorded by the newest commit (empty for an empty
history). -/
def lastSnapshot : List Commit → FileTree
  | [] => []
  | [c] => c.snapshot
  | _ :: c :: rest => lastSnapshot (c :: rest)

/-- The names whose content differs between two trees — what `git add .`
stages when the index matches `old` and the working tree is `new`
(names may repeat; only membership matters). -/
def changedNames (old nw : FileTree) : List String :=
  ((old.map Prod.fst) ++ (nw.map Prod.fst)).filter
    (fun n => decide (getFile old n ≠ getFile nw n))

/-- The newest commit that changed the sentinel file — what
`git log -1 --format=%cd -- foo.txt` reports on (history is oldest
first, so the last match wins). -/
def lastTouch : List Commit → Option Commit
  | [] => none
  | c :: rest =>
    match lastTouch rest with
    | some c2 => some c2
    | none => if c.changed.contains sentinelName then some c else none

/-- `GitOperations.initRepo` (part_001 lines 185-202): ensure the
directory exists; when no `.git` directory exists inside it, run
`git init` (which may fail, modelled by `gitOk`); otherwise do nothing.
The returned flag records whether an initialization was performed. -/
def initRepo (gitOk : Bool) (r : Repo) : Except String (Repo × Bool) :=
  let r1 : Repo := { r with dirExists := true }
  if r1.gitDir then Except.ok (r1, false)
  else if gitOk then Except.ok ({ r1 with gitDir := true }, true)
  else Except.error ("Failed to initialize git repository")

/-- `GitOperations.createCommit` (part_001 lines 204-236): overwrite the
sentinel file, stage all changes (`git add .`), and commit with the
author date forced to `date` while the committer date is the wall clock
`now`; the commit step fails when nothing is staged. -/
def createCommit (now : Int) (r : Repo) (date : Int)
    (message content : String) : Except String Repo :=
  let tree := setFile r.workTree sentinelName content
  let changed := changedNames (lastSnapshot r.history) tree
  if changed.isEmpty then Except.error ("nothing to commit")
  else Except.ok { r with
    workTree := tree,
    history := r.history ++ [⟨date, now, message, changed, tree⟩] }

/-- `GitOperations.getLastCommitDate` (part_001 lines 238-266): when the
sentinel file is missing from the working directory, return `none`;
otherwise run `git log -1 --format=%cd -- foo.txt` and return `none` on
empty output, else the printed committer date.  Every failure path is
caught, so the function is total. -/
def getLastCommitDate (r : Repo) : Option Int :=
  if getFile r.workTree sentinelName = none then none
  else
    match lastTouch r.history with
    | none => none
    | some c => some c.committerDate

/-- A directory that does not exist yet. -/
def emptyDir : Repo := ⟨false, false, [], []⟩

/-- A freshly initialized store: directory and `.git` present, nothing
committed. -/
def readyRepo : Repo := ⟨true, true, [], []⟩

/-- The commit produced by one replay with date 500 at wall clock
1000. -/
def sentinelCommit : Commit :=
  ⟨500, 1000, "fake commit", [sentinelName], [(sentinelName, "content-1")]⟩

/-- The store after that one replay. -/
def replayedRepo : Repo :=
  ⟨true, true, [(sentinelName, "content-1")], [sentinelCommit]⟩

/-- The store after that replay once the sentinel file has been deleted
from the working directory (the history still records it). -/
def deletedRepo : Repo := ⟨true, true, [], [sentinelCommit]⟩

/-- C5: `initRepo` is idempotent — whenever a call succeeds, a second
call on the resulting state succeeds, changes nothing and performs no
second initialization, whatever the outcome of the external `git init`
would be (it is not run again). -/
theorem claim_c5 (r : Repo) (ok1 ok2 : Bool) (s : Repo) (b : Bool)
    (h : initRepo ok1 r = Except.ok (s, b)) :
    initRepo ok2 s = Except.ok (s, false) := by
  obtain ⟨d, g, w, hist⟩ := r
  cases g with
  | true =>
    simp [initRepo] at h
    obtain ⟨hs, -⟩ := h
    subst hs
    simp [initRepo]
  | false =>
    cases ok1 with
    | false => simp [initRepo] at h
    | true =>
      simp [initRepo] at h
      obtain ⟨hs, -⟩ := h
      subst hs
      simp [initRepo]

/-- Witness for C5: initializing a missing directory creates the
repository once; the second call returns the same state with no new
initialization. -/
theorem claim_c5_witness :
    initRepo true emptyDir = Except.ok (readyRepo, true) ∧
    initRepo true readyRepo = Except.ok (readyRepo, false) :=
  ⟨rfl, claim_c5 emptyDir true true readyRepo true rfl⟩

/-- C3 (code bug): on a freshly initialized store the marker is absent,
but after a replay with commit date 500 performed at wall clock 1000,
`getLastCommitDate` returns 1000 — the committer (wall-clock) date read
by `git log --format=%cd` — and not the replayed date 500 that
`git commit --date` forced onto the author date only. -/
theorem claim_c3_code_bug :
    getLastCommitDate readyRepo = none ∧
    createCommit 1000 readyRepo 500 ("fake commit") ("content-1") =
      Except.ok replayedRepo ∧
    getLastCommitDate replayedRepo = some 1000 ∧
    getLastCommitDate replayedRepo ≠ some 500 := by
  refine ⟨rfl, rfl, rfl, by decide⟩

/-- C10: whenever the sentinel file is missing from the working
directory, `getLastCommitDate` returns `none` — the committed history is
consulted only when the file currently exists on disk. -/
theorem claim_c10 (r : Repo) (h : getFile r.workTree sentinelName = none) :
    getLastCommitDate r = none := by
  unfold getLastCommitDate
  rw [if_pos h]

/-- Witness for C10: a store whose history records a replay of the
sentinel file but whose working copy of it was deleted reports no
marker. -/
theorem claim_c10_witness :
    getFile deletedRepo.workTree sentinelName = none ∧
    getLastCommitDate deletedRepo = none :=
  ⟨rfl, claim_c10 deletedRepo rfl⟩

/-- Counterexample for C4 as stated: a store whose sentinel file has
been committed (the history's newest touching commit exists) but whose
working copy was deleted returns `none`, not the timestamp of the most
recent recorded change. -/
theorem claim_c4_counterexample :
    lastTouch deletedRepo.history = some sentinelCommit ∧
    getLastCommitDate deletedRepo = none ∧
    getLastCommitDate deletedRepo ≠ some sentinelCommit.committerDate := by
  refine ⟨rfl, rfl, by decide⟩

/-- C4 (amended): `getLastCommitDate` is a total function (never
throws); it returns `none` when the sentinel file has never been
committed, and `none` when the file is missing from the working
directory; otherwise — file present and committed at least once — it
returns the timestamp (committer date) of the file's most recent
recorded change. -/
theorem claim_c4_amended (r : Repo) :
    (lastTouch r.history = none → getLastCommitDate r = none) ∧
    (getFile r.workTree sentinelName = none → getLastCommitDate r = none) ∧
    (∀ c, getFile r.workTree sentinelName ≠ none →
      lastTouch r.history = some c →
      getLastCommitDate r = some c.committerDate) := by
  refine ⟨?_, ?_, ?_⟩
  · intro h
    unfold getLastCommitDate
    rw [h]
    split <;> rfl
  · intro h
    unfold getLastCommitDate
    rw [if_pos h]
  · intro c hfile htouch
    unfold getLastCommitDate
    rw [if_neg hfile, htouch]

/-- Witness for C4 (amended): the fresh store reports no marker; the
store with one replay reports that commit's committer date. -/
theorem claim_c4_witness :
    getLastCommitDate readyRepo = none ∧
    getLastCommitDate replayedRepo = some sentinelCommit.committerDate :=
  ⟨(claim_c4_amended readyRepo).1 rfl,
   (claim_c4_amended replayedRepo).2.2 sentinelCommit (by decide) rfl⟩

/-- Writing a file puts exactly the written content under its name. -/
lemma getFile_setFile (t : FileTree) (n c : String) :
    getFile (setFile t n c) n = some c := by
  induction t with
  | nil => simp [setFile, getFile]
  | cons f rest ih =>
    by_cases hf : f.1 = n
    · simp [setFile, hf, getFile]
    · simp [setFile, hf, getFile, ih]

/-- Writing the file named `n` into a tree all of whose entries are
named `n` yields a tree all of whose entries are named `n`. -/
lemma setFile_names (t : FileTree) (n c : String)
    (h : ∀ f ∈ t, f.1 = n) : ∀ f ∈ setFile t n c, f.1 = n := by
  induction t with
  | nil => simp [setFile]
  | cons g rest ih =>
    by_cases hg : g.1 = n
    · intro f hf
      rw [setFile, if_pos hg] at hf
      rcases List.mem_cons.mp hf with rfl | hf2
      · rfl
      · exact ih (fun f' hf' => h f' (List.mem_cons_of_mem g hf')) f hf2
    · exact absurd (h g (List.mem_cons_self g rest)) hg

/-- Every staged name comes from one of the two trees. -/
lemma changedNames_sub (old nw : FileTree) :
    ∀ x ∈ changedNames old nw,
      x ∈ old.map Prod.fst ∨ x ∈ nw.map Prod.fst := by
  intro x hx
  unfold changedNames at hx
  rw [List.mem_filter] at hx
  exact List.mem_append.mp hx.1

/-- If every commit's snapshot has only sentinel-named entries, so does
the newest snapshot. -/
lemma lastSnapshot_names (hist : List Commit)
    (h : ∀ c ∈ hist, ∀ f ∈ c.snapshot, f.1 = sentinelName) :
    ∀ f ∈ lastSnapshot hist, f.1 = sentinelName := by
  induction hist with
  | nil => simp [lastSnapshot]
  | cons c rest ih =>
    cases rest with
    | nil => simpa [lastSnapshot] using h c (List.mem_cons_self c [])
    | cons c2 rest2 =>
      rw [lastSnapshot]
      exact ih (fun c' hc' => h c' (List.mem_cons_of_mem c hc'))

/-- Sentinel-file invariant on a store state: the working tree holds
only the sentinel file, and every commit in the history changed only the
sentinel file and snapshots only the sentinel file. -/
def SentinelOnly (r : Repo) : Prop :=
  (∀ f ∈ r.workTree, f.1 = sentinelName) ∧
  (∀ c ∈ r.history,
    (∀ x ∈ c.changed, x = sentinelName) ∧
    (∀ f ∈ c.snapshot, f.1 = sentinelName))

/-- C9: every successful replay fully replaces the sentinel file's
content with the new content (whatever the old content was — never an
append), and preserves the invariant that the sentinel file is the sole
artifact of the working tree and of every commit, so the invariant holds
after every replay call. -/
theorem claim_c9 (r : Repo) (now date : Int) (message content : String)
    (s : Repo) (hinv : SentinelOnly r)
    (h : createCommit now r date message content = Except.ok s) :
    getFile s.workTree sentinelName = some content ∧ SentinelOnly s := by
  unfold createCommit at h
  by_cases hemp :
      (changedNames (lastSnapshot r.history)
        (setFile r.workTree sentinelName content)).isEmpty
  · rw [if_pos hemp] at h
    simp at h
  · rw [if_neg hemp] at h
    injection h with h2
    subst h2
    have hnames :
        ∀ f ∈ setFile r.workTree sentinelName content, f.1 = sentinelName :=
      setFile_names r.workTree sentinelName content hinv.1
    refine ⟨getFile_setFile r.workTree sentinelName content, hnames, ?_⟩
    intro c hc
    rcases List.mem_append.mp hc with hc | hc
    · exact hinv.2 c hc
    · have hc2 : c = ⟨date, now, message,
          changedNames (lastSnapshot r.history)
            (setFile r.workTree sentinelName content),
          setFile r.workTree sentinelName content⟩ := by
        simpa using hc
      subst hc2
      refine ⟨?_, hnames⟩
      intro x hx
      rcases changedNames_sub _ _ x hx with hx2 | hx2
      · rw [List.mem_map] at hx2
        obtain ⟨f, hf, rfl⟩ := hx2
        exact lastSnapshot_names r.history
          (fun c' hc' f' hf' => (hinv.2 c' hc').2 f' hf') f hf
      · rw [List.mem_map] at hx2
        obtain ⟨f, hf, rfl⟩ := hx2
        exact hnames f hf

/-- Witness for C9: the replay on the fresh store leaves the sentinel
file with exactly the written content and the invariant intact. -/
theorem claim_c9_witness :
    SentinelOnly readyRepo ∧
      (getFile replayedRepo.workTree sentinelName = some ("content-1") ∧
        SentinelOnly replayedRepo) :=
  ⟨by simp [SentinelOnly, readyRepo],
   claim_c9 readyRepo 1000 500 ("fake commit") ("content-1") replayedRepo
     (by simp [SentinelOnly, readyRepo]) rfl⟩

/-
Sync orchestrator: `main` (part_001 lines 456-535).
-/

/-- A fetched commit tagged with its origin, the element type of
`allCommits` (part_001 lines 457, 478-482). -/
structure DiscoveredCommit where
  commit : CommitRecord
  project : String
  repository : String
deriving DecidableEq

/-- The comparison the sort comparator
`(a, b) => date(a).getTime() - date(b).getTime()` induces. -/
def dcLE (a b : DiscoveredCommit) : Prop :=
  a.commit.authorDate ≤ b.commit.authorDate

/-- Insertion of a commit into a list, before the first element it
compares less-or-equal to. -/
def orderedInsert (a : DiscoveredCommit) :
    List DiscoveredCommit → List DiscoveredCommit
  | [] => [a]
  | b :: t =>
    if a.commit.authorDate ≤ b.commit.authorDate then a :: b :: t
    else b :: orderedInsert a t

/-- Embedding of `allCommits.sort((a, b) => ...)` (part_001 lines
507-510): ECMAScript `Array.prototype.sort` is stable, and a stable sort
consistent with a comparator is uniquely determined by it, so insertion
sort realizes the same function. -/
def sortCommits : List DiscoveredCommit → List DiscoveredCommit
  | [] => []
  | a :: t => orderedInsert a (sortCommits t)

lemma mem_orderedInsert (a x : DiscoveredCommit) (l : List DiscoveredCommit) :
    x ∈ orderedInsert a l ↔ x = a ∨ x ∈ l := by
  induction l with
  | nil => simp [orderedInsert]
  | cons b t ih =>
    by_cases hab : a.commit.authorDate ≤ b.commit.authorDate
    · simp [orderedInsert, hab]
    · simp only [orderedInsert, if_neg hab, List.mem_cons, ih]
      tauto

lemma pairwise_orderedInsert (a : DiscoveredCommit) (l : List DiscoveredCommit)
    (h : List.Pairwise dcLE l) : List.Pairwise dcLE (orderedInsert a l) := by
  induction l with
  | nil => simp [orderedInsert]
  | cons b t ih =>
    rw [List.pairwise_cons] at h
    by_cases hab : a.commit.authorDate ≤ b.commit.authorDate
    · simp only [orderedInsert, if_pos hab]
      refine List.pairwise_cons.mpr ⟨?_, List.pairwise_cons.mpr h⟩
      intro x hx
      rcases List.mem_cons.mp hx with rfl | hx2
      · exact hab
      · exact le_trans hab (h.1 x hx2)
    · have hba : b.commit.authorDate ≤ a.commit.authorDate :=
        le_of_not_le hab
      simp only [orderedInsert, if_neg hab]
      refine List.pairwise_cons.mpr ⟨?_, ih h.2⟩
      intro x hx
      rcases (mem_orderedInsert a x t).mp hx with rfl | hx2
      · exact hba
      · exact h.1 x hx2

/-- The sorted permutation is sorted. -/
lemma pairwise_sortCommits (l : List DiscoveredCommit) :
    List.Pairwise dcLE (sortCommits l) := by
  induction l with
  | nil => simp [sortCommits]
  | cons a t ih => exact pairwise_orderedInsert a (sortCommits t) ih

lemma mem_sortCommits (x : DiscoveredCommit) (l : List DiscoveredCommit) :
    x ∈ sortCommits l ↔ x ∈ l := by
  induction l with
  | nil => simp [sortCommits]
  | cons a t ih => simp [sortCommits, mem_orderedInsert, ih]

/-- The commits carrying one fixed author date, in order. -/
def dateFilter (d : Int) (l : List DiscoveredCommit) :
    List DiscoveredCommit :=
  l.filter (fun c => decide (c.commit.authorDate = d))

lemma dateFilter_cons (d : Int) (a : DiscoveredCommit)
    (l : List DiscoveredCommit) :
    dateFilter d (a :: l) =
      if a.commit.authorDate = d then a :: dateFilter d l
      else dateFilter d l := by
  by_cases ha : a.commit.authorDate = d <;>
    simp [dateFilter, List.filter_cons, ha]

lemma dateFilter_orderedInsert (d : Int) (a : DiscoveredCommit)
    (l : List DiscoveredCommit) :
    dateFilter d (orderedInsert a l) =
      if a.commit.authorDate = d then a :: dateFilter d l
      else dateFilter d l := by
  induction l with
  | nil =>
    simp only [orderedInsert]
    exact dateFilter_cons d a []
  | cons b t ih =>
    by_cases hab : a.commit.authorDate ≤ b.commit.authorDate
    · simp only [orderedInsert, if_pos hab]
      exact dateFilter_cons d a (b :: t)
    · have hba : b.commit.authorDate < a.commit.authorDate := not_le.mp hab
      simp only [orderedInsert, if_neg hab]
      rw [dateFilter_cons, ih, dateFilter_cons]
      by_cases hb : b.commit.authorDate = d
      · by_cases ha : a.commit.authorDate = d
        · exact absurd (ha.trans hb.symm) (ne_of_gt hba)
        · simp [hb, ha]
      · by_cases ha : a.commit.authorDate = d <;> simp [hb, ha]

/-- Stability of the sort: the subsequence of commits sharing any one
author date is exactly the one of the input, in input order. -/
lemma dateFilter_sortCommits (d : Int) (l : List DiscoveredCommit) :
    dateFilter d (sortCommits l) = dateFilter d l := by
  induction l with
  | nil => rfl
  | cons a t ih =>
    simp only [sortCommits]
    rw [dateFilter_orderedInsert]
    by_cases ha : a.commit.authorDate = d
    · rw [if_pos ha, ih]
      simp [dateFilter, List.filter_cons, ha]
    · rw [if_neg ha, ih]
      simp [dateFilter, List.filter_cons, ha]

/-- Discovered commit with author date 10. -/
def dcT1 : DiscoveredCommit := ⟨cA, "ProjectA", "RepoA"⟩

/-- Discovered commit with author date 20, from another repository. -/
def dcT2 : DiscoveredCommit := ⟨cB, "ProjectB", "RepoB"⟩

/-- Discovered commit with author date 30. -/
def dcT3 : DiscoveredCommit := ⟨cC, "ProjectA", "RepoA"⟩

/-- C6: the replay sequence is the discovered collection sorted by
author date ascending — the sorted list is pairwise ordered by author
date, the sort is stable (the subsequence at every fixed date is
preserved), and in particular commits with dates [30, 10, 20] are
replayed as [10, 20, 30]. -/
theorem claim_c6 (l : List DiscoveredCommit) :
    List.Pairwise dcLE (sortCommits l) ∧
    (∀ d : Int, dateFilter d (sortCommits l) = dateFilter d l) ∧
    sortCommits [dcT3, dcT1, dcT2] = [dcT1, dcT2, dcT3] :=
  ⟨pairwise_sortCommits l, fun d => dateFilter_sortCommits d l, by decide⟩

/-- Modelled from the spec: the remote service's application of the
since-date filter (`searchCriteria.fromDate`, part_001 line 144) is not
code of this repository; spec section 4.1 specifies that `listCommits`
with `sinceDate` fetches the commits "at/after `sinceDate`", an
inclusive lower bound. -/
def remoteFetch (repoCommits : List CommitRecord) (fromDate : Option Int) :
    List CommitRecord :=
  match fromDate with
  | none => repoCommits
  | some d => repoCommits.filter (fun c => decide (d ≤ c.authorDate))

/-- The orchestrator's fetch of one (project, repository, email) triple
with the cutoff passed through unmodified, tagging each commit with its
origin (part_001 lines 475-482). -/
def fetchTriple (repoCommits : List CommitRecord) (cutoff : Option Int)
    (proj repoName : String) : List DiscoveredCommit :=
  (remoteFetch repoCommits cutoff).map (fun c => ⟨c, proj, repoName⟩)

/-- A remote commit whose author date is exactly the cutoff 100. -/
def cAt100 : CommitRecord :=
  ⟨"ffff0100", "Ann", "ann@example.com", 100, "at the cutoff"⟩

/-- A remote commit with author date 150, after the cutoff 100. -/
def c150 : CommitRecord :=
  ⟨"eeee0150", "Ann", "ann@example.com", 150, "after the cutoff"⟩

/-- Counterexample for C7 as stated: with last replayed date 100, a
remote commit whose author date is exactly 100 — not strictly greater —
is fetched again and enters the replay sequence, because the since-date
filter is an inclusive bound and the code passes the marker through with
no strictness adjustment. -/
theorem claim_c7_counterexample :
    fetchTriple [cAt100] (some 100) ("ProjectA") ("RepoA") =
      [⟨cAt100, "ProjectA", "RepoA"⟩] ∧
    sortCommits (fetchTriple [cAt100] (some 100) ("ProjectA") ("RepoA")) =
      [⟨cAt100, "ProjectA", "RepoA"⟩] ∧
    ¬(100 < cAt100.authorDate) := by
  refine ⟨rfl, rfl, by decide⟩

/-- C7 (amended): a run over a store with last replayed date D requests
and replays only commits with author date at or after D — no commit
strictly before D is fetched or replayed again, while a commit dated
exactly D is fetched and replayed again. -/
theorem claim_c7_amended (repoCommits : List CommitRecord) (D : Int)
    (proj repoName : String) (dc : DiscoveredCommit) :
    (dc ∈ fetchTriple repoCommits (some D) proj repoName →
      D ≤ dc.commit.authorDate) ∧
    (dc ∈ sortCommits (fetchTriple repoCommits (some D) proj repoName) →
      D ≤ dc.commit.authorDate) := by
  have h1 : dc ∈ fetchTriple repoCommits (some D) proj repoName →
      D ≤ dc.commit.authorDate := by
    intro h
    unfold fetchTriple remoteFetch at h
    rw [List.mem_map] at h
    obtain ⟨c, hc, rfl⟩ := h
    rw [List.mem_filter] at hc
    simpa using hc.2
  exact ⟨h1, fun h => h1 ((mem_sortCommits dc _).mp h)⟩

/-- Witness for C7 (amended): with cutoff 100 a commit dated 150 is in
the replay sequence and its date is at or after the cutoff. -/
theorem claim_c7_witness :
    (⟨c150, "ProjectA", "RepoA"⟩ : DiscoveredCommit) ∈
        sortCommits
          (fetchTriple [cAt100, c150] (some 100) ("ProjectA") ("RepoA")) ∧
    (100 : Int) ≤
      (⟨c150, "ProjectA", "RepoA"⟩ : DiscoveredCommit).commit.authorDate :=
  ⟨by decide,
   (claim_c7_amended [cAt100, c150] 100 ("ProjectA") ("RepoA")
      ⟨c150, "ProjectA", "RepoA"⟩).2 (by decide)⟩

/-- One step of accumulating per-triple fetch outcomes: a successful
fetch appends its commits (part_001 line 478), a failed one is caught
and only logged (part_001 lines 486-488). -/
def collectStep (acc : List DiscoveredCommit)
    (r : Except String (List DiscoveredCommit)) : List DiscoveredCommit :=
  match r with
  | Except.ok cs => acc ++ cs
  | Except.error _ => acc

/-- The `allCommits` collection after the fetch loops: the concatenation
of all successful per-triple fetches, failures skipped. -/
def collectFetches
    (results : List (Except String (List DiscoveredCommit))) :
    List DiscoveredCommit :=
  results.foldl collectStep []

lemma mem_foldl_collectStep
    (results : List (Except String (List DiscoveredCommit))) :
    ∀ (acc : List DiscoveredCommit) (x : DiscoveredCommit), x ∈ acc →
      x ∈ results.foldl collectStep acc := by
  induction results with
  | nil => intro acc x hx; simpa using hx
  | cons r rest ih =>
    intro acc x hx
    rw [List.foldl_cons]
    apply ih
    cases r with
    | ok cs => exact List.mem_append_left cs hx
    | error e => exact hx

lemma mem_foldl_of_ok (cs : List DiscoveredCommit) (c : DiscoveredCommit)
    (hc : c ∈ cs) :
    ∀ (results : List (Except String (List DiscoveredCommit)))
      (acc : List DiscoveredCommit),
      Except.ok cs ∈ results → c ∈ results.foldl collectStep acc := by
  intro results
  induction results with
  | nil => intro acc h; simp at h
  | cons r rest ih =>
    intro acc h
    rw [List.foldl_cons]
    rcases List.mem_cons.mp h with rfl | h2
    · exact mem_foldl_collectStep rest _ c (List.mem_append_right acc hc)
    · exact ih (collectStep acc r) h2

/-- The per-commit replay loop (part_001 lines 519-533): each commit in
the sorted sequence is attempted; a failing `createCommit` is caught and
logged (the count of failures is returned) and the loop proceeds to the
next commit. -/
def replayLoop (fails : DiscoveredCommit → Bool) :
    List DiscoveredCommit → List DiscoveredCommit × Nat
  | [] => ([], 0)
  | c :: rest =>
    let r := replayLoop fails rest
    (c :: r.1, (if fails c then 1 else 0) + r.2)

lemma replayLoop_fst (fails : DiscoveredCommit → Bool)
    (l : List DiscoveredCommit) : (replayLoop fails l).1 = l := by
  induction l with
  | nil => rfl
  | cons c rest ih => simp [replayLoop, ih]

/-- The run from the fetch loop onward, after a successful store
initialization and project listing: accumulate per-triple results, exit
0 when nothing was found (part_001 line 504), else sort, attempt every
replay, and finish with exit code 0 — no code path after the fetch loop
exits nonzero. -/
def runSync (results : List (Except String (List DiscoveredCommit)))
    (fails : DiscoveredCommit → Bool) : List DiscoveredCommit × Nat :=
  let all := collectFetches results
  if all.isEmpty then ([], 0)
  else ((replayLoop fails (sortCommits all)).1, 0)

/-- C8: failure isolation — commits of any successful fetch triple are
in the accumulated collection even when other triples failed, the
replay loop attempts every commit of the sorted sequence no matter which
replays fail, and the run exits 0. -/
theorem claim_c8 (results : List (Except String (List DiscoveredCommit)))
    (fails : DiscoveredCommit → Bool) (cs : List DiscoveredCommit)
    (c : DiscoveredCommit) (hok : Except.ok cs ∈ results) (hc : c ∈ cs) :
    c ∈ collectFetches results ∧
    (replayLoop fails (sortCommits (collectFetches results))).1 =
      sortCommits (collectFetches results) ∧
    (runSync results fails).2 = 0 := by
  refine ⟨mem_foldl_of_ok cs c hc results [] hok,
    replayLoop_fst fails (sortCommits (collectFetches results)), ?_⟩
  unfold runSync
  simp only []
  split <;> rfl

/-- The fetch outcomes of a run where the first triple succeeds with one
commit and the second triple's fetch throws. -/
def wResults : List (Except String (List DiscoveredCommit)) :=
  [Except.ok [dcT1], Except.error ("Azure DevOps API error (503): down")]

/-- A replay stage in which every single replay fails. -/
def wFails : DiscoveredCommit → Bool := fun _ => true

/-- Witness for C8: with one failed fetch triple and every replay
failing, the successful triple's commit is collected, every commit of
the sorted sequence is attempted, and the run exits 0. -/
theorem claim_c8_witness :
    dcT1 ∈ collectFetches wResults ∧
    (replayLoop wFails (sortCommits (collectFetches wResults))).1 =
      sortCommits (collectFetches wResults) ∧
    (runSync wResults wFails).2 = 0 :=
  claim_c8 wResults wFails [dcT1] dcT1 (by simp [wResults]) (by simp)

end Csync
